import Mathlib

/-!
Verification of the `scribe` word-statistics pipeline
(`source/scribe/command_line.py`) against its design specification.

Characters are modelled by their Unicode code points (`Nat`), strings by
`List Nat`.  The trigram count table (`numpy.zeros((256, 256, 256))`) is
modelled as a total function `Nat → Nat → Nat → Nat`; counters are ideal
naturals (the table's counters are 32-bit in the implementation, which only
matters for serialization, handled explicitly there).
-/

abbrev Table := Nat → Nat → Nat → Nat

/-- `np.zeros((256, 256, 256))`: the all-zero count table. -/
def zeroTable : Table := fun _ _ _ => 0

/-- `matrix[a, b, c] += 1`: bump one cell of the table. -/
def incr (m : Table) (a b c : Nat) : Table :=
  fun x y z => if x = a ∧ y = b ∧ z = c then m x y z + 1 else m x y z

/-- Membership in Python's `string.whitespace` (`" \t\n\v\f\r"`,
codes 9, 10, 11, 12, 13 and 32). -/
def is_whitespace (c : Nat) : Bool :=
  decide (c = 9 ∨ c = 10 ∨ c = 11 ∨ c = 12 ∨ c = 13 ∨ c = 32)

/-- Membership in Python's `string.punctuation`
(the 32 ASCII punctuation characters, codes 33-47, 58-64, 91-96, 123-126). -/
def is_punctuation (c : Nat) : Bool :=
  decide ((33 ≤ c ∧ c ≤ 47) ∨ (58 ≤ c ∧ c ≤ 64) ∨
    (91 ≤ c ∧ c ≤ 96) ∨ (123 ≤ c ∧ c ≤ 126))

/-- Python's `unicode.isdigit()` restricted to the Latin-1 range handled by
the pipeline's ISO-8859-1 decoding: the ASCII digits 48-57 plus the
superscript digits 178 (²), 179 (³) and 185 (¹). -/
def is_digit (c : Nat) : Bool :=
  decide ((48 ≤ c ∧ c ≤ 57) ∨ c = 178 ∨ c = 179 ∨ c = 185)

/-- The tokenizer's separator class: whitespace, punctuation or digit
(the three-way test of `yield_words_from_content`). -/
def is_separator (c : Nat) : Bool :=
  is_whitespace c || is_punctuation c || is_digit c

/-- The builder's second, independent filter
(`letter not in string.punctuation and not letter.isdigit()`):
a character is retained iff it is neither punctuation nor a digit. -/
def retained (c : Nat) : Bool :=
  !(is_punctuation c) && !(is_digit c)

/-- A character of the word class of §4.2: not whitespace, not punctuation,
not a digit. -/
def is_word_char (c : Nat) : Bool := !(is_separator c)

/-! ## Word tokenizer (`yield_words_from_content`) -/

/-- The scanning loop of `yield_words_from_content`: `word` is the growing
buffer.  A non-separator is appended to the buffer; a separator emits the
buffer when non-empty.  At end of input the buffer is dropped, not emitted
(the generator simply returns). -/
def yield_words_aux : List Nat → List Nat → List (List Nat)
  | [], _ => []
  | letter :: rest, word =>
      if is_separator letter = false then
        yield_words_aux rest (word ++ [letter])
      else if word.length > 0 then
        word :: yield_words_aux rest []
      else
        yield_words_aux rest []

/-- `yield_words_from_content(content)`: tokenize `content`, starting from an
empty buffer. -/
def yield_words_from_content (content : List Nat) : List (List Nat) :=
  yield_words_aux content []

/-! ## Trigram model builder (`create_probability_matrix_from_words`) -/

/-- Failure of the builder: a retained character whose code point cannot
index the 256-wide axis (the spec's `EncodingError`; in the implementation
the out-of-range index raises when `matrix[b1, b2, ordinal]` is evaluated). -/
inductive BuildError : Type
  | EncodingError (code : Nat) : BuildError
deriving DecidableEq

/-- One iteration of the inner loop of `create_probability_matrix_from_words`
on state `(letter_buffer1, letter_buffer2, matrix)`: punctuation and digits
are skipped; otherwise `matrix[b1, b2, ord(letter)] += 1` and the rolling
context shifts.  A retained code point of 256 or above cannot index the
table and fails. -/
def processLetter (st : Nat × Nat × Table) (letter : Nat) :
    Except BuildError (Nat × Nat × Table) :=
  if retained letter then
    if letter < 256 then
      Except.ok (st.2.1, letter, incr st.2.2 st.1 st.2.1 letter)
    else
      Except.error (BuildError.EncodingError letter)
  else
    Except.ok st

/-- The inner loop over the letters of a padded word, propagating failure. -/
def processLetters : Nat × Nat × Table → List Nat →
    Except BuildError (Nat × Nat × Table)
  | st, [] => Except.ok st
  | st, letter :: rest =>
      match processLetter st letter with
      | Except.ok st' => processLetters st' rest
      | Except.error e => Except.error e

/-- Process one word: pad it as `"\n{}\n".format(word)` and run the inner
loop on the padded form. -/
def processWord (st : Nat × Nat × Table) (word : List Nat) :
    Except BuildError (Nat × Nat × Table) :=
  processLetters st (10 :: (word ++ [10]))

/-- The outer loop over the word list.  The state — including the rolling
context `(letter_buffer1, letter_buffer2)` — is threaded from one word to
the next, exactly as in the source, where both buffers are initialized
before the `for word in words` loop and never reset. -/
def processWords : Nat × Nat × Table → List (List Nat) →
    Except BuildError (Nat × Nat × Table)
  | st, [] => Except.ok st
  | st, w :: ws =>
      match processWord st w with
      | Except.ok st' => processWords st' ws
      | Except.error e => Except.error e

/-- `create_probability_matrix_from_words(words)`: zero table, both letter
buffers set to 0 once, then the two nested loops. -/
def create_probability_matrix_from_words (words : List (List Nat)) :
    Except BuildError Table :=
  match processWords (0, 0, zeroTable) words with
  | Except.ok st => Except.ok st.2.2
  | Except.error e => Except.error e

/-- Read one cell out of a builder result (0 when the build failed);
used to state concrete facts about built tables. -/
def cell (r : Except BuildError Table) (a b c : Nat) : Nat :=
  match r with
  | Except.ok m => m a b c
  | Except.error _ => 0

/-- Total counter sum over all 256 × 256 × 256 cells of a table. -/
def total (m : Table) : Nat :=
  ∑ x ∈ Finset.range 256, ∑ y ∈ Finset.range 256, ∑ z ∈ Finset.range 256,
    m x y z

/-- A variant of the builder following the spec's words in §4.3 step 2
(`(ctx1, ctx2) = (0, 0)` — reset per word, never carried across words):
every word is processed from a fresh `(0, 0)` context, only the matrix is
threaded.  Stated for comparison with the source's builder, which threads
the context across words. -/
def processWordsReset : Table → List (List Nat) → Except BuildError Table
  | m, [] => Except.ok m
  | m, w :: ws =>
      match processWord (0, 0, m) w with
      | Except.ok st => processWordsReset st.2.2 ws
      | Except.error e => Except.error e

/-- The spec-following builder: zero table, then every word processed from a
fresh `(0, 0)` context. -/
def create_probability_matrix_specReset (words : List (List Nat)) :
    Except BuildError Table :=
  processWordsReset zeroTable words

/-! ## Content fetcher (`fetch_target_content`) -/

/-- Failures of the fetcher (the spec's error taxonomy; the implementation
raises `IOError` in both cases). -/
inductive FetchError : Type
  | NetworkError (target : String) (status : Nat) : FetchError
  | FileAccessError (path : String) : FetchError
deriving DecidableEq

/-- An HTTP GET outcome: status code and decoded body. -/
structure HttpResponse : Type where
  status_code : Nat
  text : List Nat

/-- The relevant state of a local path: whether it is a regular file
(`os.path.isfile`), whether it is readable (`os.access(…, os.R_OK)`), and
its decoded content. -/
structure FileStat : Type where
  is_file : Bool
  readable : Bool
  content : List Nat

/-- Normalize one Python slice bound against a sequence of length `n`:
a negative index counts from the end (clamped below at 0), a non-negative
index is clamped above at `n`. -/
def normIdx (n : Nat) (i : Int) : Nat :=
  if i < 0 then (i + n).toNat else min i.toNat n

/-- Python's `content[start:end]` on a character sequence, with `None`
defaults for either bound; out-of-range indices silently truncate. -/
def pySlice (l : List Nat) (start stop : Option Int) : List Nat :=
  let s : Nat := match start with
    | Option.none => 0
    | Option.some i => normIdx l.length i
  let e : Nat := match stop with
    | Option.none => l.length
    | Option.some i => normIdx l.length i
  (l.take e).drop s

/-- Whether `s` starts with the pattern `pat`. -/
def starts_with : List Char → List Char → Bool
  | [], _ => true
  | _ :: _, [] => false
  | p :: ps, c :: cs => p == c && starts_with ps cs

/-- `re.match("^https?://", target)`: the target is a URL iff it starts
with `http://` or `https://`. -/
def is_url (target : String) : Bool :=
  starts_with ['h', 't', 't', 'p', ':', '/', '/'] target.data ||
  starts_with ['h', 't', 't', 'p', 's', ':', '/', '/'] target.data

/-- The URL branch of `fetch_target_content`: `r.status_code is not 200`
(identity against the interned small int 200, i.e. inequality with 200)
raises; otherwise the decoded body is returned with the slice applied. -/
def fetch_url (target : String) (r : HttpResponse) (start stop : Option Int) :
    Except FetchError (List Nat) :=
  if r.status_code ≠ 200 then
    Except.error (FetchError.NetworkError target r.status_code)
  else
    Except.ok (pySlice r.text start stop)

/-- The local-path branch of `fetch_target_content`.  The explicit guard is
the source's `not os.path.isfile(f) and os.access(f, os.R_OK)`; when it does
not fire, `codecs.open(...).read()` is modelled as succeeding exactly on a
regular readable file and raising `IOError` (mapped to `FileAccessError`,
as in the spec's taxonomy) otherwise. -/
def fetch_file (st : FileStat) (path : String) (start stop : Option Int) :
    Except FetchError (List Nat) :=
  if !st.is_file && st.readable then
    Except.error (FetchError.FileAccessError path)
  else if st.is_file && st.readable then
    Except.ok (pySlice st.content start stop)
  else
    Except.error (FetchError.FileAccessError path)

/-- `fetch_target_content(target, start, end)`, over an environment giving
the HTTP outcome of each URL and the file state of each path. -/
def fetch_target_content (http : String → HttpResponse)
    (fs : String → FileStat) (target : String) (start stop : Option Int) :
    Except FetchError (List Nat) :=
  if is_url target then fetch_url target (http target) start stop
  else fetch_file (fs target) target start stop

/-! ## Serialization (`matrix.tofile(output)`) and the documented reader -/

/-- The four little-endian bytes of a counter (a 32-bit cell is stored as
its value modulo 2^32). -/
def bytesLE4 (v : Nat) : List Nat :=
  [v % 256, v / 256 % 256, v / 65536 % 256, v / 16777216 % 256]

/-- Recombine four little-endian bytes. -/
def fromLE4 : List Nat → Nat
  | [a, b, c, d] => a + 256 * b + 65536 * c + 16777216 * d
  | _ => 0

/-- `matrix.tofile(output)`: the table written as a flat row-major blob —
cell `(c1, c2, c3)` at linear index `c1*65536 + c2*256 + c3`, four
little-endian bytes per cell, no header. -/
def tofile (m : Table) : List Nat :=
  (List.range 16777216).flatMap fun l =>
    bytesLE4 (m (l / 65536) (l / 256 % 256) (l % 256))

/-- Modelled from the spec: the external reader of the binary blob (not part
of the analyzed core) interprets it as row-major `uint32[256][256][256]`,
reading cell `(c1, c2, c3)` as the little-endian 32-bit value at byte offset
`4 * (c1*65536 + c2*256 + c3)`. -/
def read_cell (blob : List Nat) (c1 c2 c3 : Nat) : Nat :=
  fromLE4 ((blob.drop (4 * (c1 * 65536 + c2 * 256 + c3))).take 4)

/-! ## Counting lemmas -/

theorem total_zeroTable : total zeroTable = 0 := by
  unfold total zeroTable
  simp

theorem sum_indicator_range (c : Nat) (hc : c < 256) :
    ∑ z ∈ Finset.range 256, (if z = c then (1 : Nat) else 0) = 1 := by
  rw [Finset.sum_ite_eq' (Finset.range 256) c fun _ => (1 : Nat)]
  simp [Finset.mem_range.mpr hc]

theorem incr_eq (m : Table) (a b c x y z : Nat) :
    incr m a b c x y z =
      m x y z + (if x = a then (1 : Nat) else 0) *
        ((if y = b then (1 : Nat) else 0) * (if z = c then (1 : Nat) else 0)) := by
  unfold incr
  split_ifs <;> omega

theorem total_incr (m : Table) {a b c : Nat}
    (ha : a < 256) (hb : b < 256) (hc : c < 256) :
    total (incr m a b c) = total m + 1 := by
  unfold total
  simp only [incr_eq m a b c, Finset.sum_add_distrib, ← Finset.mul_sum,
    ← Finset.sum_mul]
  rw [sum_indicator_range a ha, sum_indicator_range b hb,
    sum_indicator_range c hc]
  norm_num

/-! ## Builder run lemmas -/

theorem processLetter_not_retained (st : Nat × Nat × Table) (c : Nat)
    (h : retained c = false) : processLetter st c = Except.ok st := by
  unfold processLetter
  simp [h]

theorem processLetter_retained (b1 b2 : Nat) (m : Table) (c : Nat)
    (h : retained c = true) (hc : c < 256) :
    processLetter (b1, b2, m) c = Except.ok (b2, c, incr m b1 b2 c) := by
  unfold processLetter
  simp [h, hc]

/-- Running the inner loop on letters whose retained members are all in
range succeeds, keeps the two context buffers in range, and adds exactly
one count per retained letter to the table's total. -/
theorem processLetters_ok (letters : List Nat) :
    ∀ (b1 b2 : Nat) (m : Table), b1 < 256 → b2 < 256 →
    (∀ c ∈ letters, retained c = true → c < 256) →
    ∃ st' : Nat × Nat × Table,
      processLetters (b1, b2, m) letters = Except.ok st' ∧
      st'.1 < 256 ∧ st'.2.1 < 256 ∧
      total st'.2.2 = total m + (letters.filter retained).length := by
  induction letters with
  | nil =>
      intro b1 b2 m h1 h2 _
      exact ⟨(b1, b2, m), rfl, h1, h2, by simp⟩
  | cons c rest ih =>
      intro b1 b2 m h1 h2 hin
      cases hr : retained c with
      | false =>
          obtain ⟨st', he, u1, u2, u3⟩ :=
            ih b1 b2 m h1 h2 (fun d hd hrd => hin d (List.mem_cons_of_mem _ hd) hrd)
          refine ⟨st', ?_, u1, u2, ?_⟩
          · simp only [processLetters, processLetter_not_retained _ _ hr]
            exact he
          · rw [u3]
            simp [List.filter_cons, hr]
      | true =>
          have hc : c < 256 := hin c (List.mem_cons_self c rest) hr
          obtain ⟨st', he, u1, u2, u3⟩ :=
            ih b2 c (incr m b1 b2 c) h2 hc
              (fun d hd hrd => hin d (List.mem_cons_of_mem _ hd) hrd)
          refine ⟨st', ?_, u1, u2, ?_⟩
          · simp only [processLetters, processLetter_retained b1 b2 m c hr hc]
            exact he
          · rw [u3, total_incr m h1 h2 hc]
            simp [List.filter_cons, hr]
            omega

/-- A successful inner-loop run forces every retained letter into the
supported code range. -/
theorem processLetters_ok_inrange (letters : List Nat) :
    ∀ (st st' : Nat × Nat × Table), processLetters st letters = Except.ok st' →
    ∀ c ∈ letters, retained c = true → c < 256 := by
  induction letters with
  | nil =>
      intro st st' _ c hc
      simp at hc
  | cons d rest ih =>
      intro st st' he c hc hr
      cases hd : processLetter st d with
      | error e =>
        simp only [processLetters, hd] at he
        exact Except.noConfusion he
      | ok st1 =>
        simp only [processLetters, hd] at he
        rcases List.mem_cons.mp hc with hcd | hcr
        · subst hcd
          by_cases hlt : c < 256
          · exact hlt
          · exfalso
            unfold processLetter at hd
            simp [hr, hlt] at hd
        · exact ih st1 st' he c hcr hr

/-- The only failures of the inner loop are retained out-of-range codes. -/
theorem processLetters_error_code (letters : List Nat) :
    ∀ (st : Nat × Nat × Table) (k : Nat),
    processLetters st letters = Except.error (BuildError.EncodingError k) →
    256 ≤ k ∧ retained k = true := by
  induction letters with
  | nil =>
      intro st k he
      simp [processLetters] at he
  | cons d rest ih =>
      intro st k he
      cases hd : processLetter st d with
      | ok st1 =>
        simp only [processLetters, hd] at he
        exact ih st1 k he
      | error e =>
        simp only [processLetters, hd] at he
        cases he
        unfold processLetter at hd
        by_cases hr : retained d = true
        · by_cases hlt : d < 256
          · simp [hr, hlt] at hd
          · simp [hr, hlt] at hd
            cases hd
            exact ⟨Nat.le_of_not_lt hlt, hr⟩
        · rw [Bool.not_eq_true] at hr
          simp [hr] at hd

/-- Running the outer loop over words whose retained characters are in
range succeeds and adds, per word, one count per retained character of the
padded form `\n word \n`. -/
theorem processWords_ok (ws : List (List Nat)) :
    ∀ (b1 b2 : Nat) (m : Table), b1 < 256 → b2 < 256 →
    (∀ w ∈ ws, ∀ c ∈ w, retained c = true → c < 256) →
    ∃ st' : Nat × Nat × Table,
      processWords (b1, b2, m) ws = Except.ok st' ∧
      st'.1 < 256 ∧ st'.2.1 < 256 ∧
      total st'.2.2 = total m +
        (ws.map fun w =>
          (((10 : Nat) :: (w ++ [10])).filter retained).length).sum := by
  induction ws with
  | nil =>
      intro b1 b2 m h1 h2 _
      exact ⟨(b1, b2, m), rfl, h1, h2, by simp⟩
  | cons w rest ih =>
      intro b1 b2 m h1 h2 hin
      have hpad : ∀ c ∈ (10 : Nat) :: (w ++ [10]), retained c = true → c < 256 := by
        intro c hc hr
        rcases List.mem_cons.mp hc with h | h
        · subst h; omega
        · rcases List.mem_append.mp h with h1 | h1
          · exact hin w (List.mem_cons_self w rest) c h1 hr
          · have : c = 10 := by simpa using h1
            omega
      obtain ⟨st1, he1, v1, v2, v3⟩ :=
        processLetters_ok ((10 : Nat) :: (w ++ [10])) b1 b2 m h1 h2 hpad
      obtain ⟨st', he2, u1, u2, u3⟩ :=
        ih st1.1 st1.2.1 st1.2.2 v1 v2
          (fun w' hw' => hin w' (List.mem_cons_of_mem _ hw'))
      refine ⟨st', ?_, u1, u2, ?_⟩
      · simp only [processWords, processWord]
        rw [he1]
        exact he2
      · rw [u3, v3]
        simp only [List.map_cons, List.sum_cons]
        omega

/-- A successful outer loop forces every retained character of every word
into the supported code range. -/
theorem processWords_ok_inrange (ws : List (List Nat)) :
    ∀ (st st' : Nat × Nat × Table), processWords st ws = Except.ok st' →
    ∀ w ∈ ws, ∀ c ∈ w, retained c = true → c < 256 := by
  induction ws with
  | nil =>
      intro st st' _ w hw
      simp at hw
  | cons w0 rest ih =>
      intro st st' he w hw c hc hr
      cases hd : processWord st w0 with
      | error e =>
        simp only [processWords, hd] at he
        exact Except.noConfusion he
      | ok st1 =>
        simp only [processWords, hd] at he
        rcases List.mem_cons.mp hw with h | h
        · subst h
          have hd' : processLetters st ((10 : Nat) :: (w ++ [10])) =
              Except.ok st1 := hd
          exact processLetters_ok_inrange _ _ _ hd' c
            (List.mem_cons_of_mem _ (List.mem_append_left _ hc)) hr
        · exact ih st1 st' he w h c hc hr

/-- The only failures of the outer loop are retained out-of-range codes. -/
theorem processWords_error_code (ws : List (List Nat)) :
    ∀ (st : Nat × Nat × Table) (k : Nat),
    processWords st ws = Except.error (BuildError.EncodingError k) →
    256 ≤ k ∧ retained k = true := by
  induction ws with
  | nil =>
      intro st k he
      simp [processWords] at he
  | cons w0 rest ih =>
      intro st k he
      cases hd : processWord st w0 with
      | ok st1 =>
        simp only [processWords, hd] at he
        exact ih st1 k he
      | error e =>
        simp only [processWords, hd] at he
        cases he
        have hd' : processLetters st ((10 : Nat) :: (w0 ++ [10])) =
            Except.error (BuildError.EncodingError k) := hd
        exact processLetters_error_code _ st k hd'

theorem create_eq_of_processWords (ws : List (List Nat))
    (st' : Nat × Nat × Table)
    (h : processWords (0, 0, zeroTable) ws = Except.ok st') :
    create_probability_matrix_from_words ws = Except.ok st'.2.2 := by
  unfold create_probability_matrix_from_words
  rw [h]

/-- The builder, on a word list whose retained characters are all in range,
returns a table whose total is the number of retained characters over all
padded words. -/
theorem create_ok (ws : List (List Nat))
    (hin : ∀ w ∈ ws, ∀ c ∈ w, retained c = true → c < 256) :
    ∃ m, create_probability_matrix_from_words ws = Except.ok m ∧
      total m = (ws.map fun w =>
        (((10 : Nat) :: (w ++ [10])).filter retained).length).sum := by
  obtain ⟨st', he, _, _, ht⟩ :=
    processWords_ok ws 0 0 zeroTable (by omega) (by omega) hin
  refine ⟨st'.2.2, create_eq_of_processWords ws st' he, ?_⟩
  rw [ht, total_zeroTable]
  omega

/-- A word-class character (§4.2) passes the builder's second filter. -/
theorem word_char_retained (c : Nat) (h : is_word_char c = true) :
    retained c = true := by
  simp only [is_word_char, is_separator, Bool.not_eq_true',
    Bool.or_eq_false_iff] at h
  simp [retained, h.1.2, h.2]

/-- On a word made of word-class characters, the padded form is fully
retained: one count per character plus the two sentinels. -/
theorem filter_retained_padded (w : List Nat)
    (h : ∀ c ∈ w, is_word_char c = true) :
    (((10 : Nat) :: (w ++ [10])).filter retained).length = w.length + 2 := by
  have hw : w.filter retained = w :=
    List.filter_eq_self.mpr fun c hc => word_char_retained c (h c hc)
  have h10 : retained 10 = true := by decide
  simp [List.filter_cons, List.filter_append, hw, h10]

/-! ## Tokenizer lemmas -/

/-- A separator-free input never flushes the buffer: no word is emitted. -/
theorem yield_words_aux_nosep (T : List Nat) :
    ∀ buf, (∀ c ∈ T, is_separator c = false) →
    yield_words_aux T buf = [] := by
  induction T with
  | nil =>
      intro buf _
      rfl
  | cons c rest ih =>
      intro buf h
      have hc : is_separator c = false := h c (List.mem_cons_self c rest)
      simp only [yield_words_aux, hc]
      exact ih (buf ++ [c]) fun d hd => h d (List.mem_cons_of_mem _ hd)

/-- A trailing separator after a separator-free tail flushes the whole
accumulated buffer as one word. -/
theorem yield_words_aux_append_sep (T : List Nat) :
    ∀ (buf : List Nat) (s : Nat), (∀ c ∈ T, is_separator c = false) →
    is_separator s = true → buf ++ T ≠ [] →
    yield_words_aux (T ++ [s]) buf = [buf ++ T] := by
  induction T with
  | nil =>
      intro buf s _ hs hne
      have hb : buf ≠ [] := by simpa using hne
      have hlen : buf.length > 0 := List.length_pos.mpr hb
      simp [yield_words_aux, hs, hlen]
  | cons c rest ih =>
      intro buf s h hs hne
      have hc : is_separator c = false := h c (List.mem_cons_self c rest)
      simp only [List.cons_append, yield_words_aux, hc, if_true,
        List.append_eq]
      rw [ih (buf ++ [c]) s (fun d hd => h d (List.mem_cons_of_mem _ hd)) hs
        (by simp)]
      simp

/-! ## Fetcher lemmas -/

theorem pySlice_none (l : List Nat) :
    pySlice l Option.none Option.none = l := by
  simp [pySlice]

/-- Behavior of the local-path branch: the explicit guard and the modelled
`codecs.open` failure together fail exactly on paths that are not regular
readable files; a regular readable file is read whole. -/
theorem fetch_file_spec (st : FileStat) (path : String) :
    (¬(st.is_file = true ∧ st.readable = true) →
      fetch_file st path Option.none Option.none =
        Except.error (FetchError.FileAccessError path)) ∧
    (st.is_file = true → st.readable = true →
      fetch_file st path Option.none Option.none = Except.ok st.content) := by
  rcases st with ⟨f, r, content⟩
  cases f <;> cases r <;> simp [fetch_file, pySlice_none]

/-! ## Serialization lemmas -/

theorem bytesLE4_length (v : Nat) : (bytesLE4 v).length = 4 := by
  simp [bytesLE4]

theorem fromLE4_bytesLE4 (v : Nat) (h : v < 4294967296) :
    fromLE4 (bytesLE4 v) = v := by
  simp only [bytesLE4, fromLE4]
  omega

theorem range'_flatMap_length (f : Nat → List Nat)
    (h : ∀ j, (f j).length = 4) :
    ∀ (n s : Nat), ((List.range' s n).flatMap f).length = 4 * n := by
  intro n
  induction n with
  | zero =>
      intro s
      simp
  | succ n ih =>
      intro s
      rw [List.range'_succ, List.flatMap_cons, List.length_append, h s, ih]
      ring

theorem range'_flatMap_drop (f : Nat → List Nat)
    (h : ∀ j, (f j).length = 4) :
    ∀ (n s i : Nat), i < n →
      ((List.range' s n).flatMap f).drop (4 * i) =
        f (s + i) ++ (List.range' (s + i + 1) (n - i - 1)).flatMap f := by
  intro n
  induction n with
  | zero =>
      intro s i hi
      omega
  | succ n ih =>
      intro s i hi
      rw [List.range'_succ, List.flatMap_cons]
      cases i with
      | zero =>
          simp
      | succ j =>
          rw [show 4 * (j + 1) = (f s).length + 4 * j by rw [h s]; ring,
            List.drop_append, ih (s + 1) j (by omega)]
          rw [show s + 1 + j = s + (j + 1) by omega,
            show n - j - 1 = n + 1 - (j + 1) - 1 by omega]

theorem tofile_length (m : Table) : (tofile m).length = 67108864 := by
  unfold tofile
  rw [List.range_eq_range',
    range'_flatMap_length _ (fun j => bytesLE4_length _) 16777216 0]

theorem read_cell_tofile (m : Table) (c1 c2 c3 : Nat)
    (h1 : c1 < 256) (h2 : c2 < 256) (h3 : c3 < 256)
    (hv : m c1 c2 c3 < 4294967296) :
    read_cell (tofile m) c1 c2 c3 = m c1 c2 c3 := by
  unfold read_cell tofile
  rw [List.range_eq_range']
  have hlt : c1 * 65536 + c2 * 256 + c3 < 16777216 := by omega
  rw [range'_flatMap_drop _ (fun j => bytesLE4_length _) 16777216 0
    (c1 * 65536 + c2 * 256 + c3) hlt]
  rw [Nat.zero_add]
  rw [List.take_left' (bytesLE4_length _)]
  have harg1 : (c1 * 65536 + c2 * 256 + c3) / 65536 = c1 := by omega
  have harg2 : (c1 * 65536 + c2 * 256 + c3) / 256 % 256 = c2 := by omega
  have harg3 : (c1 * 65536 + c2 * 256 + c3) % 256 = c3 := by omega
  rw [harg1, harg2, harg3]
  exact fromLE4_bytesLE4 _ hv

/-- The outer loop distributes over append: later words are processed from
the state — context included — left by the earlier ones. -/
theorem processWords_append (ws1 : List (List Nat)) :
    ∀ (ws2 : List (List Nat)) (st : Nat × Nat × Table),
    processWords st (ws1 ++ ws2) =
      (processWords st ws1).bind fun st' => processWords st' ws2 := by
  induction ws1 with
  | nil =>
      intro ws2 st
      rfl
  | cons w rest ih =>
      intro ws2 st
      cases hd : processWord st w with
      | ok st1 =>
          simp only [List.cons_append, processWords, hd]
          exact ih ws2 st1
      | error e =>
          simp only [List.cons_append, processWords, hd]
          rfl

/-! ## Claims -/

/-- C1 (counterexample): the rolling context is NOT reset per word.  In
`build([["a"], ["b"]])` the first transition of the word `"b"` is counted
under the context `(97, 10)` left by `"a"`, and cell `(0, 0, 10)` holds
only 1; the spec-following per-word-reset builder would give 0 and 2 for
those cells. -/
theorem c1_counterexample :
    cell (create_probability_matrix_from_words [[97], [98]]) 97 10 10 = 1 ∧
    cell (create_probability_matrix_from_words [[97], [98]]) 0 0 10 = 1 ∧
    cell (create_probability_matrix_specReset [[97], [98]]) 97 10 10 = 0 ∧
    cell (create_probability_matrix_specReset [[97], [98]]) 0 0 10 = 2 := by
  decide

/-- C1 (amended): the context `(letter_buffer1, letter_buffer2)` is
initialized to `(0, 0)` once, before the first word, and carried across
words: processing any word counts its leading sentinel under the incoming
context `(b1, b2)` — which is `(0, 0)` only for the very first word — and
the outer loop hands each word's final state to the next word. -/
theorem c1_context_carried (b1 b2 : Nat) (m : Table) (w : List Nat)
    (ws1 ws2 : List (List Nat)) (st : Nat × Nat × Table) :
    processWord (b1, b2, m) w =
      processLetters (b2, 10, incr m b1 b2 10) (w ++ [10]) ∧
    processWords st (ws1 ++ ws2) =
      (processWords st ws1).bind fun st' => processWords st' ws2 :=
  ⟨rfl, processWords_append ws1 ws2 st⟩

/-- C2 (counterexample): `build(["ab"])` has total counter sum 4 — the
padded form `\n a b \n` has four retained characters — not
`len("ab") + 1 = 3`. -/
theorem c2_counterexample :
    ∃ m, create_probability_matrix_from_words [[97, 98]] = Except.ok m ∧
      total m ≠ ([97, 98] : List Nat).length + 1 ∧
      total m = ([97, 98] : List Nat).length + 2 := by
  obtain ⟨m, hm, ht⟩ := create_ok [[97, 98]] (by
    intro w hw c hc hr
    fin_cases hw
    fin_cases hc <;> omega)
  refine ⟨m, hm, ?_, ?_⟩ <;> rw [ht] <;> decide

/-- C2 (amended): for a word of in-range word-class characters, the total
counter sum of `build([w])` is `len(w) + 2`: one transition per character
plus BOTH the leading and the trailing sentinel transitions. -/
theorem c2_total_len_plus_two (w : List Nat)
    (h : ∀ c ∈ w, is_word_char c = true ∧ c < 256) :
    ∃ m, create_probability_matrix_from_words [w] = Except.ok m ∧
      total m = w.length + 2 := by
  obtain ⟨m, hm, ht⟩ := create_ok [w] (by
    intro w' hw' c hc _
    have hww : w' = w := by simpa using hw'
    subst hww
    exact (h c hc).2)
  refine ⟨m, hm, ?_⟩
  rw [ht]
  simp only [List.map_cons, List.map_nil, List.sum_cons, List.sum_nil]
  rw [filter_retained_padded w fun c hc => (h c hc).1]
  omega

theorem c2_witness :
    ∃ m, create_probability_matrix_from_words [[97, 98]] = Except.ok m ∧
      total m = ([97, 98] : List Nat).length + 2 :=
  c2_total_len_plus_two [97, 98] (by
    intro c hc
    fin_cases hc <;> exact ⟨by decide, by omega⟩)

/-- C3 (counterexample): `build(["a"]) + build(["a"])` has 2 in cell
`(0, 0, 10)`, but `build(["a", "a"])` has only 1 there — the second copy's
first transition lands in `(97, 10, 10)` instead, because the context
carries across the concatenation boundary. -/
theorem c3_counterexample :
    cell (create_probability_matrix_from_words ([[97]] ++ [[97]])) 0 0 10 ≠
      cell (create_probability_matrix_from_words [[97]]) 0 0 10 +
        cell (create_probability_matrix_from_words [[97]]) 0 0 10 := by
  decide

/-- C3 (amended): element-wise additivity fails, but the TOTAL counter sum
is additive across concatenation:
`total(build(ws ++ ws)) = total(build(ws)) + total(build(ws))`. -/
theorem c3_total_additive (ws : List (List Nat))
    (h : ∀ w ∈ ws, ∀ c ∈ w, retained c = true → c < 256) :
    ∃ m1 m2, create_probability_matrix_from_words ws = Except.ok m1 ∧
      create_probability_matrix_from_words (ws ++ ws) = Except.ok m2 ∧
      total m2 = total m1 + total m1 := by
  obtain ⟨m1, h1, t1⟩ := create_ok ws h
  obtain ⟨m2, h2, t2⟩ := create_ok (ws ++ ws) (by
    intro w hw
    rcases List.mem_append.mp hw with h' | h' <;> exact h w h')
  refine ⟨m1, m2, h1, h2, ?_⟩
  rw [t1, t2, List.map_append, List.sum_append]

theorem c3_witness :
    ∃ m1 m2, create_probability_matrix_from_words [[97]] = Except.ok m1 ∧
      create_probability_matrix_from_words ([[97]] ++ [[97]]) =
        Except.ok m2 ∧
      total m2 = total m1 + total m1 :=
  c3_total_additive [[97]] (by
    intro w hw c hc hr
    fin_cases hw
    fin_cases hc
    omega)

/-- C4 (counterexample): a zero-length word is NOT skipped: `build([""])`
counts its two sentinels — cells `(0, 0, 10)` and `(0, 10, 10)` — whereas
`build([])` leaves every cell at 0. -/
theorem c4_counterexample :
    cell (create_probability_matrix_from_words [[]]) 0 0 10 = 1 ∧
    cell (create_probability_matrix_from_words [[]]) 0 10 10 = 1 ∧
    cell (create_probability_matrix_from_words ([] : List (List Nat)))
      0 0 10 = 0 := by
  decide

/-- C4 (amended): a zero-length word contributes exactly two counts — its
padded form is the two sentinels, counted under the incoming context
`(b1, b2)` and then `(b2, 10)` — and leaves the context at `(10, 10)`. -/
theorem c4_empty_word_counts (b1 b2 : Nat) (m : Table)
    (h1 : b1 < 256) (h2 : b2 < 256) :
    processWord (b1, b2, m) [] =
      Except.ok (10, 10, incr (incr m b1 b2 10) b2 10 10) ∧
    total (incr (incr m b1 b2 10) b2 10 10) = total m + 2 := by
  constructor
  · rfl
  · rw [total_incr (incr m b1 b2 10) h2 (by omega) (by omega),
      total_incr m h1 h2 (by omega)]

theorem c4_witness :
    processWord (0, 0, zeroTable) [] =
      Except.ok (10, 10, incr (incr zeroTable 0 0 10) 0 10 10) ∧
    total (incr (incr zeroTable 0 0 10) 0 10 10) = total zeroTable + 2 :=
  c4_empty_word_counts 0 0 zeroTable (by omega) (by omega)

/-- C5 (confirmed): a retained character with code 256 or above anywhere in
the word list makes the build fail with an `EncodingError` carrying an
out-of-range code; no table is returned (no wrapping or clamping). -/
theorem c5_out_of_range_fails (ws : List (List Nat)) (w : List Nat) (c : Nat)
    (hw : w ∈ ws) (hc : c ∈ w) (hr : retained c = true) (hge : 256 ≤ c) :
    ∃ code, create_probability_matrix_from_words ws =
        Except.error (BuildError.EncodingError code) ∧ 256 ≤ code ∧
      ∀ m, create_probability_matrix_from_words ws ≠ Except.ok m := by
  cases he : processWords (0, 0, zeroTable) ws with
  | ok st' =>
      exfalso
      have := processWords_ok_inrange ws _ _ he w hw c hc hr
      omega
  | error e =>
      cases e with
      | EncodingError k =>
          have hk := processWords_error_code ws _ k he
          refine ⟨k, ?_, hk.1, ?_⟩
          · unfold create_probability_matrix_from_words
            rw [he]
          · intro m hm
            unfold create_probability_matrix_from_words at hm
            rw [he] at hm
            exact Except.noConfusion hm

theorem c5_witness :
    ∃ code, create_probability_matrix_from_words [[300]] =
        Except.error (BuildError.EncodingError code) ∧ 256 ≤ code ∧
      ∀ m, create_probability_matrix_from_words [[300]] ≠ Except.ok m :=
  c5_out_of_range_fails [[300]] [300] 300 (by decide) (by decide)
    (by decide) (by decide)

/-- C6 (counterexample): status 204 is in the 2xx range, yet the fetch
fails — the source tests `r.status_code is not 200`, so every status other
than exactly 200 raises. -/
theorem c6_counterexample :
    fetch_target_content (fun _ => ⟨204, [104]⟩) (fun _ => ⟨true, true, []⟩)
      "http://wordlist" Option.none Option.none =
      Except.error (FetchError.NetworkError "http://wordlist" 204) := by
  have hu : is_url "http://wordlist" = true := by decide
  simp [fetch_target_content, hu, fetch_url]

/-- C6 (amended): for a URL target the fetch fails with a `NetworkError`
carrying the target and status iff the status differs from 200 — 2xx
statuses other than 200 fail too — and on status exactly 200 it returns
the decoded body with the optional slice applied. -/
theorem c6_fail_iff_not_200 (http : String → HttpResponse)
    (fs : String → FileStat) (target : String) (start stop : Option Int)
    (hu : is_url target = true) :
    (fetch_target_content http fs target start stop =
        Except.error
          (FetchError.NetworkError target (http target).status_code) ↔
      (http target).status_code ≠ 200) ∧
    ((http target).status_code = 200 →
      fetch_target_content http fs target start stop =
        Except.ok (pySlice (http target).text start stop)) := by
  simp only [fetch_target_content, hu, if_true]
  unfold fetch_url
  by_cases h : (http target).status_code = 200 <;> simp [h]

theorem c6_witness :
    fetch_target_content (fun _ => ⟨200, [104, 105]⟩)
      (fun _ => ⟨false, false, []⟩) "https://book" Option.none Option.none =
      Except.ok [104, 105] := by
  have h := (c6_fail_iff_not_200 (fun _ => ⟨200, [104, 105]⟩)
    (fun _ => ⟨false, false, []⟩) "https://book" Option.none Option.none
    (by decide)).2 rfl
  rwa [pySlice_none] at h

/-- C7 (confirmed): a non-URL target that is not a regular readable file
fails with a `FileAccessError`; a regular readable file is read whole and
decoded, without failure. -/
theorem c7_file_access (http : String → HttpResponse)
    (fs : String → FileStat) (target : String)
    (hu : is_url target = false) :
    (¬((fs target).is_file = true ∧ (fs target).readable = true) →
      fetch_target_content http fs target Option.none Option.none =
        Except.error (FetchError.FileAccessError target)) ∧
    ((fs target).is_file = true → (fs target).readable = true →
      fetch_target_content http fs target Option.none Option.none =
        Except.ok (fs target).content) := by
  simp only [fetch_target_content, hu, Bool.false_eq_true, if_false]
  exact fetch_file_spec (fs target) target

theorem c7_witness :
    fetch_target_content (fun _ => ⟨200, []⟩) (fun _ => ⟨true, true, [104]⟩)
      "words.txt" Option.none Option.none = Except.ok [104] ∧
    fetch_target_content (fun _ => ⟨200, []⟩) (fun _ => ⟨false, true, [104]⟩)
      "words.txt" Option.none Option.none =
      Except.error (FetchError.FileAccessError "words.txt") := by
  constructor
  · exact (c7_file_access (fun _ => ⟨200, []⟩) (fun _ => ⟨true, true, [104]⟩)
      "words.txt" (by decide)).2 rfl rfl
  · exact (c7_file_access (fun _ => ⟨200, []⟩) (fun _ => ⟨false, true, [104]⟩)
      "words.txt" (by decide)).1 (by simp)

/-- C8 (confirmed): a non-empty separator-free text yields no words (the
final buffer is not flushed at end of input), and appending one separator
yields exactly one word equal to the text. -/
theorem c8_trailing_flush (T : List Nat) (s : Nat) (hT : T ≠ [])
    (hno : ∀ c ∈ T, is_separator c = false) (hs : is_separator s = true) :
    yield_words_from_content T = [] ∧
    yield_words_from_content (T ++ [s]) = [T] := by
  constructor
  · exact yield_words_aux_nosep T [] hno
  · have h := yield_words_aux_append_sep T [] s hno hs (by simpa using hT)
    simpa using h

theorem c8_witness :
    yield_words_from_content [97, 98] = [] ∧
    yield_words_from_content ([97, 98] ++ [32]) = [[97, 98]] :=
  c8_trailing_flush [97, 98] 32 (by decide)
    (by intro c hc; fin_cases hc <;> decide) (by decide)

/-- C9 (confirmed): `build(["ab"])` increments exactly the four cells
`(0,0,10)`, `(0,10,97)`, `(10,97,98)`, `(97,98,10)` by one each and leaves
every other cell at zero. -/
theorem c9_build_ab_cells (a b c : Nat) :
    cell (create_probability_matrix_from_words [[97, 98]]) a b c =
      if (a = 0 ∧ b = 0 ∧ c = 10) ∨ (a = 0 ∧ b = 10 ∧ c = 97) ∨
          (a = 10 ∧ b = 97 ∧ c = 98) ∨ (a = 97 ∧ b = 98 ∧ c = 10)
      then 1 else 0 := by
  have hb : create_probability_matrix_from_words [[97, 98]] =
      Except.ok (incr (incr (incr (incr zeroTable 0 0 10) 0 10 97)
        10 97 98) 97 98 10) := rfl
  rw [hb]
  simp only [cell, incr, zeroTable]
  split_ifs <;> omega

/-- C10 (confirmed): serializing a table of 32-bit counters yields exactly
67,108,864 bytes with no header, and reading the blob back with the
documented row-major `uint32[256][256][256]` little-endian layout
reproduces every counter exactly. -/
theorem c10_roundtrip (m : Table)
    (hm : ∀ a b c : Nat, m a b c < 4294967296) :
    (tofile m).length = 67108864 ∧
    ∀ c1 c2 c3 : Nat, c1 < 256 → c2 < 256 → c3 < 256 →
      read_cell (tofile m) c1 c2 c3 = m c1 c2 c3 := by
  refine ⟨tofile_length m, ?_⟩
  intro c1 c2 c3 h1 h2 h3
  exact read_cell_tofile m c1 c2 c3 h1 h2 h3 (hm c1 c2 c3)

theorem c10_witness :
    (tofile zeroTable).length = 67108864 ∧
    read_cell (tofile zeroTable) 5 6 7 = zeroTable 5 6 7 := by
  have h := c10_roundtrip zeroTable (by
    intro a b c
    simp [zeroTable])
  exact ⟨h.1, h.2 5 6 7 (by omega) (by omega) (by omega)⟩
